import Mathlib

/-!
Verification of the interval-analysis and query-dispatch routines of the
`mya_getter` repository.  The Python functions of `trips.py`,
`mya/_mya.py` and `mya/mysampler.py` are shallowly embedded as Lean
functions below: timestamps and sample values become integers, a missing
(NaN) sample becomes an explicit constructor, DataFrames become lists of
rows, exceptions become `Except`, and the nondeterministic completion
order of the thread pool becomes an explicit list of indices.
-/

namespace MyaGetter

/-- A sample value in a result column: either a missing/NaN reading
(`pd.isna` is true on it) or a numeric value. -/
inductive Val where
  | nan : Val
  | num : Int → Val
  deriving DecidableEq, Repr

/-- The scanning loop of `get_down_state_intervals` (trips.py).
State is the pair of `Option` registers `s`, `e` (Python `None` is
`none`).  The branches appear in the order of the Python `if` chain:
NaN resets, idle state starts on any non-`on` value, an `off` while
tracking warns and discards, an `on` while tracking emits the pair
`(s, t)` and resets, and any other value while tracking falls through.
The third component counts `warnings.warn` calls.  The `none` arm of the
inner `match` is unreachable (whenever the emit branch runs, `e = none`
and the guard of the idle branch failed, so `s` is set). -/
def gdsiAux (onS offS : Int) (s e : Option Int) :
    List (Int × Val) → List Int × List Int × Nat
  | [] => ([], [], 0)
  | (t, v) :: rest =>
    if v = Val.nan then
      gdsiAux onS offS none none rest
    else if s = none ∧ e = none then
      if v = Val.num onS then
        gdsiAux onS offS none none rest
      else
        gdsiAux onS offS (some t) none rest
    else if v = Val.num offS then
      if s = none then
        gdsiAux onS offS (some t) none rest
      else
        let r := gdsiAux onS offS none none rest
        (r.1, r.2.1, r.2.2 + 1)
    else if v = Val.num onS then
      if e = none then
        match s with
        | some sv =>
          let r := gdsiAux onS offS none none rest
          (sv :: r.1, t :: r.2.1, r.2.2)
        | none => gdsiAux onS offS none none rest
      else
        let r := gdsiAux onS offS none none rest
        (r.1, r.2.1, r.2.2 + 1)
    else
      gdsiAux onS offS s e rest

/-- `get_down_state_intervals` (trips.py): returns the parallel lists of
interval start and end timestamps. -/
def get_down_state_intervals (rows : List (Int × Val)) (onS offS : Int) :
    List Int × List Int :=
  let r := gdsiAux onS offS none none rows
  (r.1, r.2.1)

/-- Number of warnings emitted while scanning (the side channel of
`warnings.warn` in `get_down_state_intervals`). -/
def gdsiWarnings (rows : List (Int × Val)) (onS offS : Int) : Nat :=
  (gdsiAux onS offS none none rows).2.2

/-- A `pd.Interval(left, right, closed='left')` value. -/
structure Ivl where
  l : Int
  r : Int
  deriving DecidableEq, Repr

/-- `pd.Interval.overlaps` for two intervals both closed on the left:
pandas reduces it to `self.left < other.right and other.left <
self.right` (strict, since neither is closed on the right). -/
def ivlOverlaps (a b : Ivl) : Prop :=
  a.l < b.r ∧ b.l < a.r

instance (a b : Ivl) : Decidable (ivlOverlaps a b) :=
  inferInstanceAs (Decidable (_ ∧ _))

/-- The inner loop of `interval_overlap_any` (trips.py): scan the given
suffix of `int2`, whose first element has index `j`, returning the index
of the first overlapping interval; stop early once a candidate's left
bound exceeds the current interval's right bound. -/
def scanFrom (a : Ivl) : List Ivl → Nat → Option Nat
  | [], _ => none
  | b :: rest, j =>
    if ivlOverlaps a b then some j
    else if a.r < b.l then none
    else scanFrom a rest (j + 1)

/-- The outer loop of `interval_overlap_any`: one Boolean per remaining
interval of `int1`, carrying the persistent cursor `start_j` into
`int2`; a match moves the cursor to the matched index. -/
def ioaAux (int2 : List Ivl) : List Ivl → Nat → List Bool
  | [], _ => []
  | a :: rest, startJ =>
    match scanFrom a (int2.drop startJ) startJ with
    | some j => true :: ioaAux int2 rest j
    | none => false :: ioaAux int2 rest startJ

/-- `interval_overlap_any` (trips.py).  The write-only `rf_overlaps`
list of the Python code does not reach the return value and is
omitted. -/
def interval_overlap_any (int1 int2 : List Ivl) : List Bool :=
  ioaAux int2 int1 0

/-- Ordering of interval rows by the start column, the key used by
`df.sort_values(start)` in `collapse_overlapping_intervals`. -/
def leStart (a b : Ivl) : Prop :=
  a.l ≤ b.l

instance : DecidableRel leStart :=
  fun a b => inferInstanceAs (Decidable (a.l ≤ b.l))

instance : IsTotal Ivl leStart :=
  ⟨fun a b => le_total a.l b.l⟩

instance : IsTrans Ivl leStart :=
  ⟨fun _ _ _ h1 h2 => le_trans h1 h2⟩

/-- `df.sort_values(start)`: the rows sorted ascending by start. -/
def sortStart (rows : List Ivl) : List Ivl :=
  List.insertionSort leStart rows

/-- Grouping pass of `collapse_overlapping_intervals` over the sorted
rows.  `m` is the running maximum of the end values of all rows already
consumed (`tmp[end].shift().cummax()` at the current row) and `cur` is
the group currently being built.  A row whose start strictly exceeds `m`
closes the current group and opens a new one (the cumulative sum of the
Boolean column increments exactly there). -/
def groupAux : List Ivl → Int → List Ivl → List (List Ivl)
  | [], _, cur => [cur]
  | x :: rest, m, cur =>
    if m < x.l then
      cur :: groupAux rest (max m x.r) [x]
    else
      groupAux rest (max m x.r) (cur ++ [x])

/-- The partition of the input rows into overlap groups
(`tmp.groupby(['interval_id'])` before aggregation).  The first sorted
row always lands in group 0 because its shifted cumulative maximum is
NaN and the comparison with NaN is false. -/
def collapse_groups (rows : List Ivl) : List (List Ivl) :=
  match sortStart rows with
  | [] => []
  | x :: rest => groupAux rest x.r [x]

/-- `agg({start: 'min'})` over one group (groups are nonempty; the
default value for an empty list is irrelevant). -/
def minStart : List Ivl → Int
  | [] => 0
  | x :: rest => rest.foldl (fun a y => min a y.l) x.l

/-- `agg({end: 'max'})` over one group. -/
def maxEnd : List Ivl → Int
  | [] => 0
  | x :: rest => rest.foldl (fun a y => max a y.r) x.r

/-- `collapse_overlapping_intervals` (trips.py) with the default
aggregation: one output interval per group, start aggregated by `min`
and end by `max`. -/
def collapse_overlapping_intervals (rows : List Ivl) : List Ivl :=
  (collapse_groups rows).map (fun g => ⟨minStart g, maxEnd g⟩)

/-- The row-dropping loop of `remove_repeat_values` (trips.py): `prev`
is always the value of the immediately preceding row of the traversal
(it is updated on every iteration, dropped or not). -/
def dropRepeatRows (prev : Int) : List (Int × Int) → List (Int × Int)
  | [] => []
  | row :: rest =>
    if row.2 = prev then dropRepeatRows row.2 rest
    else row :: dropRepeatRows row.2 rest

/-- `remove_repeat_values` (trips.py) as the code actually executes.
Rows are `(Date, value)` pairs.  The line
`df.rename_axis('idx').sort_values(by=['Date', 'idx'], inplace=True)`
sorts a fresh copy returned by `rename_axis` and discards it, so the
frame the drop loop walks is the UNSORTED input; the embedding therefore
applies the drop loop directly to the input order. -/
def remove_repeat_values (rows : List (Int × Int)) : List (Int × Int) :=
  match rows with
  | [] => []
  | row :: rest => row :: dropRepeatRows row.2 rest

/-- Ordering of `(Date, value)` rows by the Date column. -/
def dateLe (a b : Int × Int) : Prop :=
  a.1 ≤ b.1

instance : DecidableRel dateLe :=
  fun a b => inferInstanceAs (Decidable (a.1 ≤ b.1))

instance : IsTotal (Int × Int) dateLe :=
  ⟨fun a b => le_total a.1 b.1⟩

instance : IsTrans (Int × Int) dateLe :=
  ⟨fun _ _ _ h1 h2 => le_trans h1 h2⟩

/-- Chronological sort by `(Date, original-row-order)`: a stable sort on
the Date column (insertion sort keeps the original order of rows with
equal dates, which is exactly the `idx` tie-break). -/
def sortByDate (rows : List (Int × Int)) : List (Int × Int) :=
  List.insertionSort dateLe rows

/-- `remove_repeat_values` as its own docstring and the spec describe
it: first sort chronologically with a stable tie-break, then drop every
row whose value equals the immediately preceding post-sort row's
value. -/
def remove_repeat_values_intended (rows : List (Int × Int)) : List (Int × Int) :=
  match sortByDate rows with
  | [] => []
  | row :: rest => row :: dropRepeatRows row.2 rest

/-! Constants of `mya/mysampler.py`. -/

def MILLIS_PER_SECOND : Nat := 1000

def MILLIS_PER_MINUTE : Nat := 60000

def MILLIS_PER_HOUR : Nat := 3600000

def MILLIS_PER_DAY : Nat := 86400000

def MILLIS_PER_WEEK : Nat := 604800000

/-- Decimal reading of a digit group, as `int(match.group(1))`. -/
def digitsToNat (cs : List Char) : Nat :=
  cs.foldl (fun n c => n * 10 + (c.toNat - '0'.toNat)) 0

/-- The interval regex of `MySamplerQuery.to_web_params`,
`^(\d+)(\D)$`: one or more digits followed by a single non-digit
character.  The interval string is modelled as its character list.
Returns the multiplier and the unit character on a match. -/
def parseInterval (cs : List Char) : Option (Nat × Char) :=
  match cs.getLast? with
  | none => none
  | some u =>
    let digits := cs.dropLast
    if digits ≠ [] ∧ digits.all Char.isDigit ∧ ¬ u.isDigit then
      some (digitsToNat digits, u)
    else none

/-- The unit dispatch of `to_web_params`.  The branches are transcribed
exactly as written in the source, including the branch for `'h'`. -/
def unitMillis (unit : Char) : Except String Nat :=
  if unit = 's' then .ok MILLIS_PER_SECOND
  else if unit = 'm' then .ok MILLIS_PER_MINUTE
  else if unit = 'h' then .ok MILLIS_PER_WEEK
  else if unit = 'd' then .ok MILLIS_PER_DAY
  else if unit = 'w' then .ok MILLIS_PER_WEEK
  else .error "Unsupported time specification"

/-- The computation of the web parameter `'s'` in `to_web_params`:
parse the interval string, look up the per-unit milliseconds, and
return `millis * multiplier`; unmatched strings and unknown units raise
`ValueError`. -/
def to_web_params_s (interval : List Char) : Except String Nat :=
  match parseInterval interval with
  | some (multiplier, unit) =>
    match unitMillis unit with
    | .ok millis => .ok (millis * multiplier)
    | .error msg => .error msg
  | none => .error "Unsupported time specification"

/-- The result-collection loop of `do_parallel_queries` (mya/_mya.py):
the futures are consumed in completion order and `future.result()`
re-raises the first failure encountered, abandoning the batch. -/
def collectResults : List (Except String (List Int)) → Except String (List (List Int))
  | [] => .ok []
  | .error msg :: _ => .error msg
  | .ok t :: rest =>
    match collectResults rest with
    | .ok ts => .ok (t :: ts)
    | .error msg => .error msg

/-- `pd.concat(results, keys=[f"query_0", ...])` followed by
`reset_index()`: table number `i` of `results` (in list position order)
is tagged with key `i`, and all rows are concatenated. -/
def tagConcat (tables : List (List Int)) : List (Nat × Int) :=
  tables.enum.flatMap (fun p => p.2.map (fun row => (p.1, row)))

/-- `do_parallel_queries` (mya/_mya.py).  `fetched` holds the outcome
of `func(queries[i])` for each query index `i`; `completion` lists the
query indices in the order their futures complete (the scheduling
nondeterminism of the thread pool, unconstrained by the code).  The
results list is assembled in completion order, then concatenated with
positionally assigned `query_i` keys. -/
def do_parallel_queries (fetched : List (Except String (List Int)))
    (completion : List Nat) : Except String (List (Nat × Int)) :=
  match collectResults (completion.map (fun k => fetched.getD k (.ok []))) with
  | .ok tables => .ok (tagConcat tables)
  | .error msg => .error msg

/-! ## Theorems -/

/-- C7: in `get_down_state_intervals`, a NaN row resets the tracking
state regardless of what was pending, and the concrete sequence
`[off, NaN, on]` (at times 0, 1, 2 with `on_state = 1`,
`off_state = 0`) produces zero intervals: the pending start recorded at
the `off` row is abandoned by the NaN. -/
theorem c7_nan_resets_tracking :
    (∀ (onS offS : Int) (s e : Option Int) (t : Int) (rest : List (Int × Val)),
        gdsiAux onS offS s e ((t, Val.nan) :: rest) = gdsiAux onS offS none none rest)
    ∧ get_down_state_intervals [(0, Val.num 0), (1, Val.nan), (2, Val.num 1)] 1 0 = ([], []) := by
  refine ⟨?_, rfl⟩
  intro onS offS s e t rest
  simp [gdsiAux]

/-- C8: on `[off, off, on]` (times 0, 1, 2, `on_state = 1`,
`off_state = 0`) the scanner emits exactly one warning, discards the
ambiguous pending interval and produces zero intervals (it keeps
scanning, non-fatally); and in general the number of emitted intervals
never exceeds the number of rows carrying the `on_state` value, so a
single on-transition can never account for two intervals. -/
theorem c8_double_off_warns_and_discards :
    gdsiAux 1 0 none none [(0, Val.num 0), (1, Val.num 0), (2, Val.num 1)] = ([], [], 1)
    ∧ ∀ (onS offS : Int) (s e : Option Int) (rows : List (Int × Val)),
        (gdsiAux onS offS s e rows).1.length
          ≤ rows.countP (fun row => decide (row.2 = Val.num onS)) := by
  refine ⟨rfl, ?_⟩
  intro onS offS s e rows
  induction rows generalizing s e with
  | nil => simp [gdsiAux]
  | cons row rest ih =>
    obtain ⟨t, v⟩ := row
    rw [List.countP_cons]
    simp only [gdsiAux]
    split
    · exact le_trans (ih _ _) (Nat.le_add_right _ _)
    · split
      · split
        · exact le_trans (ih _ _) (Nat.le_add_right _ _)
        · exact le_trans (ih _ _) (Nat.le_add_right _ _)
      · split
        · split
          · exact le_trans (ih _ _) (Nat.le_add_right _ _)
          · exact le_trans (ih _ _) (Nat.le_add_right _ _)
        · split
          · next hv =>
            split
            · split
              · next sv =>
                have h1 := ih (none : Option Int) (none : Option Int)
                have hif : (fun row => decide (row.2 = Val.num onS)) (t, v) = true := by
                  simp [hv]
                simp only [hif, if_true, List.length_cons]
                omega
              · exact le_trans (ih _ _) (Nat.le_add_right _ _)
            · exact le_trans (ih _ _) (Nat.le_add_right _ _)
          · exact le_trans (ih _ _) (Nat.le_add_right _ _)

/-- C10: whenever the sampler interval string matches the regex with
unit character `'h'` (hours), the web sample-spacing parameter `'s'` is
computed as `MILLIS_PER_WEEK * multiplier` (604 800 000 N), identical
to what the same multiplier with unit `'w'` yields, and no unit at all
is ever converted using `MILLIS_PER_HOUR` (3 600 000). -/
theorem c10_hours_unit_uses_week_millis :
    (∀ (cs : List Char) (m : Nat), parseInterval cs = some (m, 'h') →
        to_web_params_s cs = .ok (MILLIS_PER_WEEK * m))
    ∧ (∀ (cs1 cs2 : List Char) (m : Nat), parseInterval cs1 = some (m, 'h') →
        parseInterval cs2 = some (m, 'w') → to_web_params_s cs1 = to_web_params_s cs2)
    ∧ ∀ u : Char, unitMillis u ≠ .ok MILLIS_PER_HOUR := by
  refine ⟨?_, ?_, ?_⟩
  · intro cs m h
    unfold to_web_params_s
    rw [h]
    rfl
  · intro cs1 cs2 m h1 h2
    unfold to_web_params_s
    rw [h1, h2]
    rfl
  · intro u
    unfold unitMillis
    repeat' split
    all_goals simp [MILLIS_PER_SECOND, MILLIS_PER_MINUTE, MILLIS_PER_HOUR,
      MILLIS_PER_DAY, MILLIS_PER_WEEK]

/-- Witness for C10 at the concrete interval strings `"2h"` and
`"2w"`. -/
theorem c10_witness :
    parseInterval ['2', 'h'] = some (2, 'h')
    ∧ parseInterval ['2', 'w'] = some (2, 'w')
    ∧ to_web_params_s ['2', 'h'] = .ok (MILLIS_PER_WEEK * 2)
    ∧ to_web_params_s ['2', 'h'] = to_web_params_s ['2', 'w'] :=
  ⟨by decide, by decide,
    c10_hours_unit_uses_week_millis.1 ['2', 'h'] 2 (by decide),
    c10_hours_unit_uses_week_millis.2.1 ['2', 'h'] ['2', 'w'] 2 (by decide) (by decide)⟩

/-- C1 is violated by the code: with two queries whose tables are
`[10]` and `[20]`, if the second query's future completes first
(completion order `[1, 0]`), its row `20` is tagged with query index 0,
yet `20` is not a row of query 0's table.  The keys `query_0 ...` are
zipped against the completion-ordered results list, so the tag records
completion rank, not the originating query's position. -/
theorem c1_tags_follow_completion_order :
    do_parallel_queries [.ok [10], .ok [20]] [1, 0] = .ok [(0, 20), (1, 10)]
    ∧ ((20 : Int) ∈ ([10] : List Int) → False) :=
  ⟨rfl, by decide⟩

/-- Any failure in the collected results list makes `collectResults`
return that error (the loop re-raises at the first failed future). -/
theorem collectResults_error_of_mem {rs : List (Except String (List Int))} {msg : String}
    (h : Except.error msg ∈ rs) : ∃ e, collectResults rs = Except.error e := by
  induction rs with
  | nil => cases h
  | cons r rest ih =>
    cases r with
    | error m => exact ⟨m, rfl⟩
    | ok t =>
      rcases List.mem_cons.mp h with h1 | h2
      · simp at h1
      · obtain ⟨e, he⟩ := ih h2
        exact ⟨e, by simp [collectResults, he]⟩

/-- C9: if any individual fetch fails, the whole batch fails: whenever
some query index in the completion order has a failed fetch outcome,
`do_parallel_queries` returns an error and no combined table is
produced.  (No retry exists in the model: each fetch outcome is
consulted once.) -/
theorem c9_any_failure_aborts_batch
    (fetched : List (Except String (List Int))) (completion : List Nat)
    (i : Nat) (msg : String) (hmem : i ∈ completion)
    (hfail : fetched.getD i (.ok []) = .error msg) :
    ∃ e, do_parallel_queries fetched completion = Except.error e := by
  have hm : Except.error msg ∈ completion.map (fun k => fetched.getD k (.ok [])) := by
    rw [← hfail]
    exact List.mem_map_of_mem _ hmem
  obtain ⟨e, he⟩ := collectResults_error_of_mem hm
  refine ⟨e, ?_⟩
  unfold do_parallel_queries
  rw [he]

/-- Witness for C9: three queries, the second configured to fail with
`SourceUnavailable`; the whole batch errors out. -/
theorem c9_witness :
    (1 ∈ [0, 1, 2])
    ∧ ([Except.ok [1], Except.error "SourceUnavailable",
        Except.ok [2]].getD 1 (Except.ok ([] : List Int)) = Except.error "SourceUnavailable")
    ∧ ∃ e, do_parallel_queries [.ok [1], .error "SourceUnavailable", .ok [2]] [0, 1, 2]
        = Except.error e :=
  ⟨by decide, rfl,
    c9_any_failure_aborts_batch _ _ 1 "SourceUnavailable" (by decide) rfl⟩

/-- C5 is violated by the code: on the input rows
`[(Date 1, 7), (Date 3, 9), (Date 2, 7)]` the executed
`remove_repeat_values` returns all three rows unchanged (the sorted
copy produced by `rename_axis(...).sort_values(..., inplace=True)` is
discarded, so no sort happens and no adjacent duplicates exist in input
order), and the result does contain two chronologically-adjacent rows
with equal values; the behavior the docstring and spec describe would
return `[(1, 7), (3, 9)]`. -/
theorem c5_sort_never_happens :
    remove_repeat_values [(1, 7), (3, 9), (2, 7)] = [(1, 7), (3, 9), (2, 7)]
    ∧ ¬ List.Chain' (fun a b => a.2 ≠ b.2)
        (sortByDate (remove_repeat_values [(1, 7), (3, 9), (2, 7)]))
    ∧ remove_repeat_values_intended [(1, 7), (3, 9), (2, 7)] = [(1, 7), (3, 9)] := by
  refine ⟨rfl, ?_, rfl⟩
  intro h
  rw [show sortByDate (remove_repeat_values [(1, 7), (3, 9), (2, 7)])
        = [(1, 7), (2, 7), (3, 9)] from rfl] at h
  exact (List.chain'_cons.mp h).1 rfl

/-- C6 is violated by the code: the two input intervals `[0, 5)` and
`[5, 10)` merely touch at the endpoint 5, hence do not overlap under
the half-open convention (and each satisfies start < end), yet
`collapse_overlapping_intervals` merges them into the single group
`[0, 10)` instead of returning them unchanged as two groups — the
grouping condition `start > cummax(prior ends)` is strict, so touching
intervals are coalesced. -/
theorem c6_counterexample_touching_intervals_merge :
    ¬ ivlOverlaps ⟨0, 5⟩ ⟨5, 10⟩
    ∧ (0 : Int) < 5 ∧ (5 : Int) < 10
    ∧ collapse_overlapping_intervals [⟨0, 5⟩, ⟨5, 10⟩] = [⟨0, 10⟩]
    ∧ (collapse_overlapping_intervals [⟨0, 5⟩, ⟨5, 10⟩]).length ≠ 2 := by
  exact ⟨by decide, by decide, by decide, rfl, by decide⟩

/-! Helper lemmas about `minStart`, `maxEnd` and `groupAux`. -/

theorem foldl_min_le_init : ∀ (t : List Ivl) (a : Int),
    t.foldl (fun a y => min a y.l) a ≤ a
  | [], _ => le_refl _
  | y :: t, a => le_trans (foldl_min_le_init t (min a y.l)) (min_le_left _ _)

theorem foldl_min_le_mem : ∀ (t : List Ivl) (a : Int) (x : Ivl), x ∈ t →
    t.foldl (fun a y => min a y.l) a ≤ x.l := by
  intro t
  induction t with
  | nil => intro a x hx; cases hx
  | cons y t ih =>
    intro a x hx
    rcases List.mem_cons.mp hx with rfl | hx'
    · exact le_trans (foldl_min_le_init t _) (min_le_right _ _)
    · exact ih _ x hx'

theorem init_le_foldl_max : ∀ (t : List Ivl) (a : Int),
    a ≤ t.foldl (fun a y => max a y.r) a
  | [], _ => le_refl _
  | y :: t, a => le_trans (le_max_left _ _) (init_le_foldl_max t (max a y.r))

theorem mem_le_foldl_max : ∀ (t : List Ivl) (a : Int) (x : Ivl), x ∈ t →
    x.r ≤ t.foldl (fun a y => max a y.r) a := by
  intro t
  induction t with
  | nil => intro a x hx; cases hx
  | cons y t ih =>
    intro a x hx
    rcases List.mem_cons.mp hx with rfl | hx'
    · exact le_trans (le_max_right _ _) (init_le_foldl_max t _)
    · exact ih _ x hx'

/-- Aggregated bounds contain every member of the group. -/
theorem minStart_le_maxEnd_mem (g : List Ivl) (x : Ivl) (hx : x ∈ g) :
    minStart g ≤ x.l ∧ x.r ≤ maxEnd g := by
  cases g with
  | nil => cases hx
  | cons y t =>
    rcases List.mem_cons.mp hx with rfl | hx'
    · exact ⟨foldl_min_le_init t _, init_le_foldl_max t _⟩
    · exact ⟨foldl_min_le_mem t _ x hx', mem_le_foldl_max t _ x hx'⟩

theorem minStart_append_single (g : List Ivl) (x : Ivl) (hg : g ≠ []) :
    minStart (g ++ [x]) = min (minStart g) x.l := by
  cases g with
  | nil => exact absurd rfl hg
  | cons y t => simp [minStart, List.foldl_append]

theorem maxEnd_append_single (g : List Ivl) (x : Ivl) (hg : g ≠ []) :
    maxEnd (g ++ [x]) = max (maxEnd g) x.r := by
  cases g with
  | nil => exact absurd rfl hg
  | cons y t => simp [maxEnd, List.foldl_append]

/-- The groups flattened back together are exactly the sorted rows. -/
theorem groupAux_flatten : ∀ (rest : List Ivl) (m : Int) (cur : List Ivl),
    (groupAux rest m cur).flatten = cur ++ rest := by
  intro rest
  induction rest with
  | nil => intro m cur; simp [groupAux]
  | cons x rest ih =>
    intro m cur
    simp only [groupAux]
    split
    · simp [ih]
    · simp [ih]

theorem groupAux_ne_nil : ∀ (rest : List Ivl) (m : Int) (cur : List Ivl),
    groupAux rest m cur ≠ [] := by
  intro rest
  induction rest with
  | nil => intro m cur; simp [groupAux]
  | cons x rest ih =>
    intro m cur
    simp only [groupAux]
    split
    · simp
    · exact ih _ _

theorem groupAux_forall_ne_nil : ∀ (rest : List Ivl) (m : Int) (cur : List Ivl),
    cur ≠ [] → ∀ g ∈ groupAux rest m cur, g ≠ [] := by
  intro rest
  induction rest with
  | nil => intro m cur hc g hg; simp [groupAux] at hg; exact hg ▸ hc
  | cons x rest ih =>
    intro m cur hc g hg
    simp only [groupAux] at hg
    split at hg
    · rcases List.mem_cons.mp hg with rfl | hg'
      · exact hc
      · exact ih _ _ (by simp) g hg'
    · exact ih _ _ (by simp) g hg

/-- The first group returned keeps the minimum start of the accumulator
when every remaining row starts no earlier. -/
theorem groupAux_head_minStart : ∀ (rest : List Ivl) (m : Int) (cur : List Ivl),
    cur ≠ [] → (∀ y ∈ rest, minStart cur ≤ y.l) →
    ∀ g gs, groupAux rest m cur = g :: gs → minStart g = minStart cur := by
  intro rest
  induction rest with
  | nil =>
    intro m cur _ _ g gs hg
    simp only [groupAux] at hg
    cases hg
    rfl
  | cons x rest ih =>
    intro m cur hc hmin g gs hg
    simp only [groupAux] at hg
    split at hg
    · cases hg
      rfl
    · have hx : minStart cur ≤ x.l := hmin x (by simp)
      have h1 : minStart (cur ++ [x]) = minStart cur := by
        rw [minStart_append_single cur x hc, min_eq_left hx]
      have h2 : ∀ y ∈ rest, minStart (cur ++ [x]) ≤ y.l := by
        intro y hy
        rw [h1]
        exact hmin y (by simp [hy])
      rw [ih _ _ (by simp) h2 g gs hg, h1]

/-- Consecutive groups are strictly separated: each group's aggregated
end lies strictly below the next group's aggregated start. -/
theorem groupAux_chain : ∀ (rest : List Ivl) (m : Int) (cur : List Ivl),
    List.Pairwise leStart rest →
    (∀ y ∈ rest, ∀ z ∈ cur, z.l ≤ y.l) →
    cur ≠ [] → maxEnd cur ≤ m →
    List.Chain' (fun g h => maxEnd g < minStart h) (groupAux rest m cur) := by
  intro rest
  induction rest with
  | nil => intro m cur _ _ _ _; simp [groupAux]
  | cons x rest ih =>
    intro m cur hsorted hcur hc hm
    obtain ⟨hx, hsorted'⟩ := List.pairwise_cons.mp hsorted
    simp only [groupAux]
    split
    · next hlt =>
      have hG' := ih (max m x.r) [x] hsorted'
        (fun y hy z hz => by rw [List.mem_singleton.mp hz]; exact hx y hy)
        (by simp) (by simp [maxEnd])
      refine List.chain'_cons'.mpr ⟨?_, hG'⟩
      intro g2 hg2
      obtain ⟨g, gs, hgs⟩ : ∃ g gs, groupAux rest (max m x.r) [x] = g :: gs := by
        cases hG : groupAux rest (max m x.r) [x] with
        | nil => exact absurd hG (groupAux_ne_nil _ _ _)
        | cons g gs => exact ⟨g, gs, rfl⟩
      rw [hgs] at hg2
      simp only [List.head?_cons, Option.mem_some_iff] at hg2
      have hmin : minStart g = minStart [x] :=
        groupAux_head_minStart rest (max m x.r) [x] (by simp)
          (fun y hy => by simpa [minStart] using hx y hy) g gs hgs
      subst hg2
      rw [hmin]
      simp only [minStart, List.foldl_nil]
      exact lt_of_le_of_lt hm hlt
    · next hge =>
      refine ih (max m x.r) (cur ++ [x]) hsorted' ?_ (by simp) ?_
      · intro y hy z hz
        rcases List.mem_append.mp hz with h | h
        · exact hcur y (by simp [hy]) z h
        · rcases List.mem_singleton.mp h with rfl
          exact hx y hy
      · rw [maxEnd_append_single cur x hc]
        exact max_le_max hm (le_refl _)

/-- Chain separation plus left-below-right bounds give full pairwise
separation of the output intervals. -/
theorem chain_sep_pairwise : ∀ l : List Ivl, (∀ o ∈ l, o.l ≤ o.r) →
    List.Chain' (fun a b => a.r < b.l) l → List.Pairwise (fun a b => a.r < b.l) l
  | [], _, _ => List.Pairwise.nil
  | [_], _, _ => by simp
  | a :: b :: t, hlr, hch => by
    have hch' := List.chain'_cons.mp hch
    have ih := chain_sep_pairwise (b :: t)
      (fun o ho => hlr o (List.mem_cons_of_mem _ ho)) hch'.2
    refine List.pairwise_cons.mpr ⟨?_, ih⟩
    intro c hc
    rcases List.mem_cons.mp hc with rfl | hct
    · exact hch'.1
    · have hbc : b.r < c.l := (List.pairwise_cons.mp ih).1 c hct
      have hb : b.l ≤ b.r := hlr b (by simp)
      have hab : a.r < b.l := hch'.1
      omega

/-- C2: on any input whose intervals all satisfy start < end,
`collapse_overlapping_intervals` partitions the rows — the groups
flatten back to a permutation of the input, so each input interval
belongs to exactly one group — every group's aggregated
[min-start, max-end] contains each member interval, and the output
intervals are mutually non-overlapping. -/
theorem c2_collapse_partitions_and_separates (rows : List Ivl)
    (hlr : ∀ x ∈ rows, x.l < x.r) :
    (collapse_groups rows).flatten.Perm rows
    ∧ (∀ g ∈ collapse_groups rows, ∀ x ∈ g, minStart g ≤ x.l ∧ x.r ≤ maxEnd g)
    ∧ List.Pairwise (fun a b => ¬ ivlOverlaps a b)
        (collapse_overlapping_intervals rows) := by
  have hperm : List.Perm (sortStart rows) rows := List.perm_insertionSort _ _
  have hsorted : List.Pairwise leStart (sortStart rows) := List.sorted_insertionSort _ _
  refine ⟨?_, fun g _ x hx => minStart_le_maxEnd_mem g x hx, ?_⟩
  · unfold collapse_groups
    cases hs : sortStart rows with
    | nil =>
      rw [hs] at hperm
      simp [hperm.symm.eq_nil]
    | cons x rest =>
      rw [groupAux_flatten]
      rw [hs] at hperm
      simpa using hperm
  · unfold collapse_overlapping_intervals collapse_groups
    cases hs : sortStart rows with
    | nil => simp
    | cons x rest =>
      rw [hs] at hsorted hperm
      obtain ⟨hx, hsorted'⟩ := List.pairwise_cons.mp hsorted
      have hchain : List.Chain' (fun g h => maxEnd g < minStart h)
          (groupAux rest x.r [x]) :=
        groupAux_chain rest x.r [x] hsorted'
          (fun y hy z hz => by rw [List.mem_singleton.mp hz]; exact hx y hy)
          (by simp) (by simp [maxEnd])
      have hjoin := groupAux_flatten rest x.r [x]
      have hne := groupAux_forall_ne_nil rest x.r [x] (by simp)
      have hlr' : ∀ g ∈ groupAux rest x.r [x], minStart g ≤ maxEnd g := by
        intro g hg
        obtain ⟨y, hy⟩ := List.exists_mem_of_ne_nil g (hne g hg)
        have hyrows : y ∈ rows := by
          have : y ∈ (groupAux rest x.r [x]).flatten :=
            List.mem_flatten.mpr ⟨g, hg, hy⟩
          rw [hjoin] at this
          exact hperm.mem_iff.mp (by simpa using this)
        have hb := minStart_le_maxEnd_mem g y hy
        have := hlr y hyrows
        omega
      have hchain2 : List.Chain' (fun a b => a.r < b.l)
          ((groupAux rest x.r [x]).map fun g => (⟨minStart g, maxEnd g⟩ : Ivl)) := by
        rw [List.chain'_map]
        exact hchain
      have hbounds : ∀ o ∈ (groupAux rest x.r [x]).map
          fun g => (⟨minStart g, maxEnd g⟩ : Ivl), o.l ≤ o.r := by
        intro o ho
        obtain ⟨g, hg, rfl⟩ := List.mem_map.mp ho
        exact hlr' g hg
      exact (chain_sep_pairwise _ hbounds hchain2).imp
        (fun h => by intro hov; exact absurd hov.2 (by omega))

/-- Witness for C2 at a concrete mix of overlapping and separated
intervals. -/
theorem c2_witness :
    (∀ x ∈ [(⟨0, 5⟩ : Ivl), ⟨3, 8⟩, ⟨10, 12⟩], x.l < x.r)
    ∧ ((collapse_groups [(⟨0, 5⟩ : Ivl), ⟨3, 8⟩, ⟨10, 12⟩]).flatten.Perm
        [(⟨0, 5⟩ : Ivl), ⟨3, 8⟩, ⟨10, 12⟩]
      ∧ (∀ g ∈ collapse_groups [(⟨0, 5⟩ : Ivl), ⟨3, 8⟩, ⟨10, 12⟩],
          ∀ x ∈ g, minStart g ≤ x.l ∧ x.r ≤ maxEnd g)
      ∧ List.Pairwise (fun a b => ¬ ivlOverlaps a b)
          (collapse_overlapping_intervals [(⟨0, 5⟩ : Ivl), ⟨3, 8⟩, ⟨10, 12⟩])) :=
  ⟨by decide, c2_collapse_partitions_and_separates _ (by decide)⟩

/-- When every pending row starts strictly after everything already
seen, every row becomes its own group. -/
theorem groupAux_separated : ∀ (rest : List Ivl) (m : Int) (cur : List Ivl),
    (∀ y ∈ rest, m < y.l) →
    List.Pairwise (fun a b => a.r < b.l) rest →
    groupAux rest m cur = cur :: rest.map (fun x => [x]) := by
  intro rest
  induction rest with
  | nil => intro m cur _ _; simp [groupAux]
  | cons x rest ih =>
    intro m cur hm hp
    obtain ⟨hx, hp'⟩ := List.pairwise_cons.mp hp
    simp only [groupAux]
    rw [if_pos (hm x (by simp))]
    rw [ih (max m x.r) [x]
      (fun y hy => max_lt (hm y (by simp [hy])) (hx y hy)) hp']
    simp

/-- C6 amended: if the input intervals (each with start < end) are
pairwise strictly separated — for each pair, one start strictly exceeds
the other end, so touching endpoints are excluded —
`collapse_overlapping_intervals` returns them unchanged up to the sort
by start: one singleton group per input interval. -/
theorem c6_separated_intervals_unchanged (rows : List Ivl)
    (hlr : ∀ x ∈ rows, x.l < x.r)
    (hsep : List.Pairwise (fun a b => a.r < b.l ∨ b.r < a.l) rows) :
    collapse_groups rows = (sortStart rows).map (fun x => [x])
    ∧ collapse_overlapping_intervals rows = sortStart rows := by
  have hperm : List.Perm (sortStart rows) rows := List.perm_insertionSort _ _
  have hsorted : List.Pairwise leStart (sortStart rows) := List.sorted_insertionSort _ _
  have hsep' : List.Pairwise (fun a b => a.r < b.l ∨ b.r < a.l) (sortStart rows) :=
    (hperm.pairwise_iff (fun h => Or.symm h)).mpr hsep
  have hlr' : ∀ x ∈ sortStart rows, x.l < x.r :=
    fun x hx => hlr x (hperm.mem_iff.mp hx)
  have hchain : List.Pairwise (fun a b => a.r < b.l) (sortStart rows) := by
    refine (hsorted.and hsep').imp_of_mem ?_
    intro a b ha hb h
    rcases h.2 with h2 | h2
    · exact h2
    · have := hlr' b hb
      have h1 : a.l ≤ b.l := h.1
      omega
  have hmain : collapse_groups rows = (sortStart rows).map (fun x => [x]) := by
    unfold collapse_groups
    cases hs : sortStart rows with
    | nil => simp
    | cons x rest =>
      rw [hs] at hchain
      obtain ⟨hx, hchain'⟩ := List.pairwise_cons.mp hchain
      show groupAux rest x.r [x] = (x :: rest).map (fun x => [x])
      rw [groupAux_separated rest x.r [x] hx hchain']
      simp
  refine ⟨hmain, ?_⟩
  unfold collapse_overlapping_intervals
  rw [hmain, List.map_map]
  have : ((fun g => (⟨minStart g, maxEnd g⟩ : Ivl)) ∘ fun x => [x]) = fun x => x := by
    funext x
    rfl
  rw [this]
  simp

/-- Witness for the amended C6 at two strictly separated intervals
given out of order. -/
theorem c6_witness :
    (∀ x ∈ [(⟨3, 4⟩ : Ivl), ⟨0, 1⟩], x.l < x.r)
    ∧ List.Pairwise (fun a b => a.r < b.l ∨ b.r < a.l) [(⟨3, 4⟩ : Ivl), ⟨0, 1⟩]
    ∧ (collapse_groups [(⟨3, 4⟩ : Ivl), ⟨0, 1⟩]
        = (sortStart [(⟨3, 4⟩ : Ivl), ⟨0, 1⟩]).map (fun x => [x])
      ∧ collapse_overlapping_intervals [(⟨3, 4⟩ : Ivl), ⟨0, 1⟩]
        = sortStart [(⟨3, 4⟩ : Ivl), ⟨0, 1⟩]) :=
  ⟨by decide, by decide,
    c6_separated_intervals_unchanged _ (by decide) (by decide)⟩

/-- Invariant of the scan: with strictly increasing timestamps and a
carried start below every remaining timestamp, the emitted start/end
lists are parallel, each pair is ordered, ends come from `on_state`
rows, starts come from row timestamps or the carried register, and
consecutive pairs are strictly separated. -/
theorem gdsiAux_spec (onS offS : Int) (rows : List (Int × Val)) :
    ∀ (s : Option Int) (S E : List Int) (W : Nat),
      List.Pairwise (· < ·) (rows.map Prod.fst) →
      (∀ sv, s = some sv → ∀ r ∈ rows, sv < r.1) →
      gdsiAux onS offS s none rows = (S, E, W) →
      S.length = E.length
      ∧ (∀ p ∈ S.zip E,
          p.1 < p.2 ∧ (p.2, Val.num onS) ∈ rows
          ∧ (p.1 ∈ rows.map Prod.fst ∨ s = some p.1))
      ∧ List.Chain' (fun p q => p.2 < q.1) (S.zip E) := by
  induction rows with
  | nil =>
    intro s S E W _ _ hR
    simp only [gdsiAux, Prod.mk.injEq] at hR
    obtain ⟨rfl, rfl, rfl⟩ := hR
    simp
  | cons head rest ih =>
    obtain ⟨t, v⟩ := head
    intro s S E W hpw hs hR
    have hp' : (∀ (a : Int) (x : Val), (a, x) ∈ rest → t < a)
        ∧ List.Pairwise (· < ·) (rest.map Prod.fst) := by simpa using hpw
    have hp1 : ∀ y ∈ rest, t < y.1 := fun y hy => hp'.1 y.1 y.2 hy
    have hp2 : List.Pairwise (· < ·) (rest.map Prod.fst) := hp'.2
    have weaken :
        (S.length = E.length
          ∧ (∀ p ∈ S.zip E,
              p.1 < p.2 ∧ (p.2, Val.num onS) ∈ rest
              ∧ (p.1 ∈ rest.map Prod.fst ∨ (none : Option Int) = some p.1))
          ∧ List.Chain' (fun p q => p.2 < q.1) (S.zip E)) →
        S.length = E.length
        ∧ (∀ p ∈ S.zip E,
            p.1 < p.2 ∧ (p.2, Val.num onS) ∈ (t, v) :: rest
            ∧ (p.1 ∈ ((t, v) :: rest).map Prod.fst ∨ s = some p.1))
        ∧ List.Chain' (fun p q => p.2 < q.1) (S.zip E) := by
      rintro ⟨hlen, hmem, hch⟩
      refine ⟨hlen, ?_, hch⟩
      intro p hp
      obtain ⟨h1, h2, h3⟩ := hmem p hp
      refine ⟨h1, List.mem_cons_of_mem _ h2, ?_⟩
      rcases h3 with h3 | h3
      · exact Or.inl (by simp [List.mem_cons_of_mem, h3])
      · simp at h3
    have track :
        gdsiAux onS offS (some t) none rest = (S, E, W) →
        S.length = E.length
        ∧ (∀ p ∈ S.zip E,
            p.1 < p.2 ∧ (p.2, Val.num onS) ∈ (t, v) :: rest
            ∧ (p.1 ∈ ((t, v) :: rest).map Prod.fst ∨ s = some p.1))
        ∧ List.Chain' (fun p q => p.2 < q.1) (S.zip E) := by
      intro hR'
      obtain ⟨hlen, hmem, hch⟩ := ih (some t) S E W hp2
        (fun sv hsv r hr => by injection hsv with h; exact h ▸ hp1 r hr) hR'
      refine ⟨hlen, ?_, hch⟩
      intro p hp
      obtain ⟨h1, h2, h3⟩ := hmem p hp
      refine ⟨h1, List.mem_cons_of_mem _ h2, ?_⟩
      rcases h3 with h3 | h3
      · exact Or.inl (by simp [List.mem_cons_of_mem, h3])
      · injection h3 with h3
        exact Or.inl (by simp [← h3])
    simp only [gdsiAux] at hR
    split at hR
    · exact weaken (ih none S E W hp2 (by simp) hR)
    · split at hR
      · split at hR
        · exact weaken (ih none S E W hp2 (by simp) hR)
        · exact track hR
      · split at hR
        · split at hR
          · exact track hR
          · obtain ⟨⟨r1, r2, r3⟩, hg⟩ : ∃ r, gdsiAux onS offS none none rest = r :=
              ⟨_, rfl⟩
            rw [hg] at hR
            simp only [Prod.mk.injEq] at hR
            obtain ⟨rfl, rfl, rfl⟩ := hR
            exact weaken (ih none r1 r2 r3 hp2 (by simp) hg)
        · split at hR
          · next hv =>
            split at hR
            · split at hR
              · next sv hsv =>
                subst hv
                obtain ⟨⟨r1, r2, r3⟩, hg⟩ : ∃ r, gdsiAux onS offS none none rest = r :=
                  ⟨_, rfl⟩
                rw [hg] at hR
                simp only [Prod.mk.injEq] at hR
                obtain ⟨rfl, rfl, rfl⟩ := hR
                obtain ⟨hlen, hmem, hch⟩ := ih none r1 r2 r3 hp2 (by simp) hg
                refine ⟨by simp [hlen], ?_, ?_⟩
                · intro p hp
                  rw [List.zip_cons_cons] at hp
                  rcases List.mem_cons.mp hp with rfl | hp'
                  · exact ⟨hs sv rfl (t, Val.num onS) (List.mem_cons_self _ _),
                      List.mem_cons_self _ _, Or.inr rfl⟩
                  · obtain ⟨h1, h2, h3⟩ := hmem p hp'
                    refine ⟨h1, List.mem_cons_of_mem _ h2, ?_⟩
                    rcases h3 with h3 | h3
                    · exact Or.inl (by simp [List.mem_cons_of_mem, h3])
                    · simp at h3
                · rw [List.zip_cons_cons]
                  refine List.chain'_cons'.mpr ⟨?_, hch⟩
                  intro q hq
                  have hq' := List.mem_of_mem_head? hq
                  obtain ⟨_, _, h3⟩ := hmem q hq'
                  rcases h3 with h3 | h3
                  · obtain ⟨y, hy, hyq⟩ := List.mem_map.mp h3
                    exact hyq ▸ hp1 y hy
                  · simp at h3
              · exact weaken (ih none S E W hp2 (by simp) hR)
            · next hne => exact absurd trivial hne
          · obtain ⟨hlen, hmem, hch⟩ := ih s S E W hp2
              (fun sv hsv r hr => hs sv hsv r (List.mem_cons_of_mem _ hr)) hR
            refine ⟨hlen, ?_, hch⟩
            intro p hp
            obtain ⟨h1, h2, h3⟩ := hmem p hp
            refine ⟨h1, List.mem_cons_of_mem _ h2, ?_⟩
            rcases h3 with h3 | h3
            · exact Or.inl (by simp [List.mem_cons_of_mem, h3])
            · exact Or.inr h3

/-- C3: for every input whose timestamps are strictly increasing,
`get_down_state_intervals` returns two parallel lists of equal length;
each emitted pair satisfies start < end; the emitted intervals are
strictly time-ordered and mutually non-overlapping (each end lies
strictly before the next start); and every emitted interval is closed
by an `on_state` row of the input, so a trailing open interval (a start
without a closing on-transition) is never emitted. -/
theorem c3_down_state_interval_invariants (rows : List (Int × Val)) (onS offS : Int)
    (hchain : List.Chain' (· < ·) (rows.map Prod.fst)) :
    ∀ S E, get_down_state_intervals rows onS offS = (S, E) →
      S.length = E.length
      ∧ (∀ p ∈ S.zip E, p.1 < p.2)
      ∧ List.Chain' (fun p q => p.2 < q.1) (S.zip E)
      ∧ ∀ p ∈ S.zip E, (p.2, Val.num onS) ∈ rows := by
  intro S E hSE
  have hpw : List.Pairwise (· < ·) (rows.map Prod.fst) :=
    List.chain'_iff_pairwise.mp hchain
  obtain ⟨⟨r1, r2, r3⟩, hg⟩ : ∃ r, gdsiAux onS offS none none rows = r := ⟨_, rfl⟩
  have hspec := gdsiAux_spec onS offS rows none r1 r2 r3 hpw (by simp) hg
  unfold get_down_state_intervals at hSE
  rw [hg] at hSE
  simp only [Prod.mk.injEq] at hSE
  obtain ⟨rfl, rfl⟩ := hSE
  exact ⟨hspec.1, fun p hp => (hspec.2.1 p hp).1, hspec.2.2,
    fun p hp => (hspec.2.1 p hp).2.1⟩

/-- Witness for C3 at the sequence `[on, off, on]`, which yields the
single interval (1, 2). -/
theorem c3_witness :
    List.Chain' (· < ·)
      (([(0, Val.num 1), (1, Val.num 0), (2, Val.num 1)] : List (Int × Val)).map Prod.fst)
    ∧ (([1] : List Int).length = ([2] : List Int).length
      ∧ (∀ p ∈ ([1] : List Int).zip [2], p.1 < p.2)
      ∧ List.Chain' (fun p q => p.2 < q.1) (([1] : List Int).zip [2])
      ∧ ∀ p ∈ ([1] : List Int).zip [2],
          (p.2, Val.num 1) ∈ ([(0, Val.num 1), (1, Val.num 0), (2, Val.num 1)] : List (Int × Val))) :=
  ⟨by simp [List.chain'_cons, List.chain'_singleton],
    c3_down_state_interval_invariants [(0, Val.num 1), (1, Val.num 0), (2, Val.num 1)]
      1 0 (by simp [List.chain'_cons, List.chain'_singleton]) [1] [2] rfl⟩

/-- If the inner scan reports no match, nothing in the scanned suffix
overlaps: a hit would have returned, and the early break is sound on a
start-sorted suffix because later candidates start even further
right. -/
theorem scanFrom_none (a : Ivl) : ∀ (l : List Ivl) (j : Nat),
    List.Pairwise (fun x y => x.l ≤ y.l) l →
    scanFrom a l j = none → ∀ b ∈ l, ¬ ivlOverlaps a b := by
  intro l
  induction l with
  | nil => intro j _ _ b hb; cases hb
  | cons b0 rest ih =>
    intro j hpw hscan b hb
    obtain ⟨hb0, hpw'⟩ := List.pairwise_cons.mp hpw
    simp only [scanFrom] at hscan
    split at hscan
    · simp at hscan
    · next hov =>
      split at hscan
      · next hbr =>
        rcases List.mem_cons.mp hb with rfl | hbt
        · exact hov
        · have hle := hb0 b hbt
          intro hcon
          have := hcon.2
          omega
      · rcases List.mem_cons.mp hb with rfl | hbt
        · exact hov
        · exact ih (j + 1) hpw' hscan b hbt

/-- If the inner scan reports a match at `k`, then `k` lies at or after
the cursor, the interval at offset `k - j` of the suffix overlaps, and
every candidate strictly before it in the suffix was checked and does
not overlap. -/
theorem scanFrom_some (a : Ivl) : ∀ (l : List Ivl) (j k : Nat),
    scanFrom a l j = some k →
    j ≤ k ∧ (∃ b, l[k - j]? = some b ∧ ivlOverlaps a b)
    ∧ ∀ m, m < k - j → ∀ b', l[m]? = some b' → ¬ ivlOverlaps a b' := by
  intro l
  induction l with
  | nil => intro j k h; simp [scanFrom] at h
  | cons b0 rest ih =>
    intro j k hscan
    simp only [scanFrom] at hscan
    split at hscan
    · next hov =>
      injection hscan with h
      subst h
      refine ⟨le_refl _, ⟨b0, by simp, hov⟩, ?_⟩
      intro m hm b' _
      exact absurd hm (by omega)
    · next hov =>
      split at hscan
      · simp at hscan
      · obtain ⟨h1, ⟨b, hbeq, hbov⟩, h3⟩ := ih (j + 1) k hscan
        refine ⟨by omega, ⟨b, ?_, hbov⟩, ?_⟩
        · have hk : k - j = (k - (j + 1)) + 1 := by omega
          rw [hk, List.getElem?_cons_succ]
          exact hbeq
        · intro m hm b' hb'
          cases m with
          | zero =>
            simp only [List.getElem?_cons_zero, Option.some.injEq] at hb'
            exact hb' ▸ hov
          | succ m' =>
            rw [List.getElem?_cons_succ] at hb'
            exact h3 m' (by omega) b' hb'

/-- Invariant correctness of the outer loop: provided both lists are
sorted by start and every `int2` index strictly below the cursor has
already been ruled out against every remaining `int1` interval, the
produced Booleans decide overlap with SOME interval of all of
`int2`. -/
theorem ioaAux_spec (int2 : List Ivl)
    (hB : List.Pairwise (fun x y => x.l ≤ y.l) int2) :
    ∀ (l1 : List Ivl) (sj : Nat),
      List.Pairwise (fun x y => x.l ≤ y.l) l1 →
      (∀ j', j' < sj → ∀ b, int2[j']? = some b → ∀ a ∈ l1, ¬ ivlOverlaps a b) →
      (ioaAux int2 l1 sj).length = l1.length
      ∧ ∀ (i : Nat) (hi : i < l1.length) (hi2 : i < (ioaAux int2 l1 sj).length),
          (ioaAux int2 l1 sj)[i] = true ↔ ∃ b ∈ int2, ivlOverlaps l1[i] b := by
  intro l1
  induction l1 with
  | nil => intro sj _ _; simp [ioaAux]
  | cons a rest ih =>
    intro sj hpw hinv
    obtain ⟨ha, hpw'⟩ := List.pairwise_cons.mp hpw
    cases hscan : scanFrom a (int2.drop sj) sj with
    | some k =>
      have heq : ioaAux int2 (a :: rest) sj = true :: ioaAux int2 rest k := by
        simp only [ioaAux, hscan]
      rw [heq]
      obtain ⟨hjk, ⟨b0, hb0eq, hb0ov⟩, h3⟩ := scanFrom_some a (int2.drop sj) sj k hscan
      have hb0eq' : int2[k]? = some b0 := by
        rw [List.getElem?_drop] at hb0eq
        have hsum : sj + (k - sj) = k := by omega
        rw [hsum] at hb0eq
        exact hb0eq
      have hb0mem : b0 ∈ int2 := by
        obtain ⟨hlt, he⟩ := List.getElem?_eq_some.mp hb0eq'
        exact he ▸ List.getElem_mem hlt
      have hinv' : ∀ j', j' < k → ∀ b, int2[j']? = some b →
          ∀ a' ∈ rest, ¬ ivlOverlaps a' b := by
        intro j' hj' b hb a' ha'
        by_cases hcase : j' < sj
        · exact hinv j' hcase b hb a' (List.mem_cons_of_mem _ ha')
        · push_neg at hcase
          have hbdrop : (int2.drop sj)[j' - sj]? = some b := by
            rw [List.getElem?_drop]
            have hsum : sj + (j' - sj) = j' := by omega
            rw [hsum]
            exact hb
          have hfail := h3 (j' - sj) (by omega) b hbdrop
          have hble : b.l ≤ b0.l := by
            obtain ⟨hlt1, he1⟩ := List.getElem?_eq_some.mp hb
            obtain ⟨hlt2, he2⟩ := List.getElem?_eq_some.mp hb0eq'
            have := List.pairwise_iff_getElem.mp hB j' k hlt1 hlt2 hj'
            rw [he1, he2] at this
            exact this
          have hbr : b.r ≤ a.l := by
            rcases not_and_or.mp hfail with h | h
            · omega
            · exfalso
              have := hb0ov.2
              omega
          have hale := ha a' ha'
          intro hcon
          have := hcon.1
          omega
      have hrest := ih k hpw' hinv'
      refine ⟨by simpa using hrest.1, ?_⟩
      intro i hi hi2
      cases i with
      | zero =>
        simp only [List.getElem_cons_zero]
        exact ⟨fun _ => ⟨b0, hb0mem, hb0ov⟩, fun _ => trivial⟩
      | succ i' =>
        simp only [List.getElem_cons_succ]
        exact hrest.2 i' (by simpa using hi) (by simpa using hi2)
    | none =>
      have heq : ioaAux int2 (a :: rest) sj = false :: ioaAux int2 rest sj := by
        simp only [ioaAux, hscan]
      rw [heq]
      have hnone := scanFrom_none a (int2.drop sj) sj
        (hB.sublist (List.drop_sublist _ _)) hscan
      have hinva : ∀ j', j' < sj → ∀ b, int2[j']? = some b →
          ∀ a' ∈ rest, ¬ ivlOverlaps a' b :=
        fun j' hj' b hb a' ha' => hinv j' hj' b hb a' (List.mem_cons_of_mem _ ha')
      have hrest := ih sj hpw' hinva
      refine ⟨by simpa using hrest.1, ?_⟩
      intro i hi hi2
      cases i with
      | zero =>
        simp only [List.getElem_cons_zero]
        refine ⟨fun h => absurd h (by simp), fun hex => ?_⟩
        exfalso
        obtain ⟨b, hbmem, hbov⟩ := hex
        obtain ⟨jb, hjb, hjbeq⟩ := List.mem_iff_getElem.mp hbmem
        by_cases hcase : jb < sj
        · exact hinv jb hcase b
            (by rw [← hjbeq]; exact List.getElem?_eq_getElem hjb) a
            (List.mem_cons_self _ _) hbov
        · push_neg at hcase
          have hbdrop : (int2.drop sj)[jb - sj]? = some b := by
            rw [List.getElem?_drop]
            have hsum : sj + (jb - sj) = jb := by omega
            rw [hsum, ← hjbeq]
            exact List.getElem?_eq_getElem hjb
          have hbmem' : b ∈ int2.drop sj := by
            obtain ⟨hlt, he⟩ := List.getElem?_eq_some.mp hbdrop
            exact he ▸ List.getElem_mem hlt
          exact hnone b hbmem' hbov
      | succ i' =>
        simp only [List.getElem_cons_succ]
        exact hrest.2 i' (by simpa using hi) (by simpa using hi2)

/-- C4: for start-sorted interval lists `int1` and `int2` under the
left-closed/right-open overlap convention, `interval_overlap_any`
returns one Boolean per `int1` interval which is true exactly when some
interval of `int2` overlaps it; with empty `int2` every result is
false. -/
theorem c4_interval_overlap_any_iff (int1 int2 : List Ivl)
    (h1 : List.Pairwise (fun x y => x.l ≤ y.l) int1)
    (h2 : List.Pairwise (fun x y => x.l ≤ y.l) int2) :
    (interval_overlap_any int1 int2).length = int1.length
    ∧ (∀ (i : Nat) (hi : i < int1.length)
        (hi2 : i < (interval_overlap_any int1 int2).length),
        (interval_overlap_any int1 int2)[i] = true ↔ ∃ b ∈ int2, ivlOverlaps int1[i] b)
    ∧ (int2 = [] → ∀ x ∈ interval_overlap_any int1 int2, x = false) := by
  have hspec := ioaAux_spec int2 h2 int1 0 h1
    (fun j' hj' => absurd hj' (Nat.not_lt_zero _))
  refine ⟨hspec.1, hspec.2, ?_⟩
  intro hnil x hx
  obtain ⟨i, hi2, hxeq⟩ := List.mem_iff_getElem.mp hx
  have hi : i < int1.length := by rw [← hspec.1]; exact hi2
  cases hxval : x with
  | false => rfl
  | true =>
    exfalso
    rw [hxval] at hxeq
    obtain ⟨b, hbmem, _⟩ := (hspec.2 i hi hi2).mp hxeq
    rw [hnil] at hbmem
    cases hbmem

/-- Witness for C4: `int1 = [[0,5), [6,7)]` against
`int2 = [[5,100), [6,7)]` — the first gets no overlap (touching at 5
does not count), the second overlaps both candidates. -/
theorem c4_witness :
    List.Pairwise (fun x y => x.l ≤ y.l) [(⟨0, 5⟩ : Ivl), ⟨6, 7⟩]
    ∧ List.Pairwise (fun x y => x.l ≤ y.l) [(⟨5, 100⟩ : Ivl), ⟨6, 7⟩]
    ∧ ((interval_overlap_any [(⟨0, 5⟩ : Ivl), ⟨6, 7⟩] [⟨5, 100⟩, ⟨6, 7⟩]).length
        = ([(⟨0, 5⟩ : Ivl), ⟨6, 7⟩] : List Ivl).length
      ∧ (∀ (i : Nat) (hi : i < ([(⟨0, 5⟩ : Ivl), ⟨6, 7⟩] : List Ivl).length)
          (hi2 : i < (interval_overlap_any [(⟨0, 5⟩ : Ivl), ⟨6, 7⟩] [⟨5, 100⟩, ⟨6, 7⟩]).length),
          (interval_overlap_any [(⟨0, 5⟩ : Ivl), ⟨6, 7⟩] [⟨5, 100⟩, ⟨6, 7⟩])[i] = true
            ↔ ∃ b ∈ ([(⟨5, 100⟩ : Ivl), ⟨6, 7⟩] : List Ivl),
                ivlOverlaps ([(⟨0, 5⟩ : Ivl), ⟨6, 7⟩] : List Ivl)[i] b)
      ∧ (([(⟨5, 100⟩ : Ivl), ⟨6, 7⟩] : List Ivl) = [] →
          ∀ x ∈ interval_overlap_any [(⟨0, 5⟩ : Ivl), ⟨6, 7⟩] [⟨5, 100⟩, ⟨6, 7⟩],
            x = false)) :=
  ⟨by simp [List.pairwise_cons], by simp [List.pairwise_cons],
    c4_interval_overlap_any_iff [⟨0, 5⟩, ⟨6, 7⟩] [⟨5, 100⟩, ⟨6, 7⟩]
      (by simp [List.pairwise_cons]) (by simp [List.pairwise_cons])⟩

end MyaGetter
